import Mathlib

/-!
Verification of the Yotei weighted-round-robin task scheduler.

The Go sources are embedded shallowly:

* A `*Task` value is identified by a `TaskId` (Go compares tasks by
  reference identity, `t == task`).
* `Scheduler.next` reads, for each pooled task, its weight, its lock flag
  and its concurrency flag; `TaskV` is that read-only view.
* Go `uint64` arithmetic is `Nat` arithmetic reduced modulo `u64 = 2 ^ 64`
  wherever the source adds weights (`Tasks.Weight`, the running sum in
  `Scheduler.next`).
* The pool (`scheduler.tasks`) is a Go slice; where in-place aliasing
  matters (`Scheduler.Remove`) it is modelled as an underlying array plus
  a length (`GoSlice`), and a slice-bounds violation is an
  `Except.error`.
* The scheduler's lock discipline (`next` locking a selected sequential
  task, `handleTasker`'s deferred unlock) is modelled as a small-step
  system `Reach` over states that also record which task executions are in
  flight.
-/

namespace Yotei

/-- Reference identity of a `*Task` pointer. -/
abbrev TaskId := Nat

/-- The Go `uint64` modulus: `2 ^ 64`. -/
def u64 : Nat := 2 ^ 64

/-- The attributes of a task as read by the scheduler's selection step:
its identity and the `weight`, `locked` and `concurrent` atomics
(`task.Weight()`, `task.IsLocked()`, `task.IsConcurrent()`). -/
structure TaskV where
  id : TaskId
  weight : Nat
  locked : Bool
  concurrent : Bool
deriving DecidableEq

/-- `Tasks.Unlocked` (tasker.go): the subsequence of tasks whose lock flag
is unset, in pool order. -/
def unlockedOf (tasks : List TaskV) : List TaskV :=
  tasks.filter (fun t => !t.locked)

/-- `Tasks.Locked` (tasker.go): the subsequence of tasks whose lock flag
is set, in pool order. -/
def lockedOf (tasks : List TaskV) : List TaskV :=
  tasks.filter (fun t => t.locked)

/-- The `uint64` running sum `total += task.Weight()` of `Tasks.Weight`,
started from an arbitrary accumulator so that prefix sums can be reasoned
about. -/
def wfold (a : Nat) (tasks : List TaskV) : Nat :=
  tasks.foldl (fun a t => (a + t.weight) % u64) a

/-- `Tasks.Weight` (tasker.go): the `uint64` sum of the weights. -/
def tasksWeight (tasks : List TaskV) : Nat :=
  wfold 0 tasks

/-- The selection walk of `Scheduler.next` (scheduler.go lines 138-148):
`current += task.Weight(); if pick < current { return task }`, with the
`uint64` accumulator `current` passed explicitly. -/
def selectLoop (p : Nat) : Nat → List TaskV → Option TaskV
  | _, [] => none
  | current, t :: rest =>
    if p < (current + t.weight) % u64 then some t
    else selectLoop p ((current + t.weight) % u64) rest

/-- The body of `Scheduler.next` (scheduler.go lines 121-151) after the
pool mutex has been acquired, with the draw `rand.Uint64()` passed in as
`r`: compute the unlocked subset and its weight, return `none` on zero
weight, otherwise walk with `pick = r % weight`.  (The locking of the
selected non-concurrent task is modelled by `selectStep`.) -/
def nextGo (tasks : List TaskV) (r : Nat) : Option TaskV :=
  let unlocked := unlockedOf tasks
  let weight := tasksWeight unlocked
  if weight = 0 then none
  else selectLoop (r % weight) 0 unlocked

/-- Concrete pool used to witness the selection theorems: two unlocked
tasks of weights 2 and 3, and a locked one of weight 5. -/
def tasksW1 : List TaskV :=
  [⟨0, 2, false, false⟩, ⟨1, 3, false, false⟩, ⟨2, 5, true, false⟩]

/-- `Scheduler.Add` (scheduler.go lines 77-90).  The inner
`for _, t := range scheduler.tasks { if t == task { continue } }` loop has
no effect: its `continue` statement targets the inner loop itself, so the
`append` below it runs for every argument unconditionally. -/
def schedulerAdd (pool : List TaskId) (args : List TaskId) : List TaskId :=
  args.foldl (fun acc task => acc ++ [task]) pool

/-- A Go slice value: the underlying array (whose length is the capacity)
together with the slice length.  `append(s[:i], s[i+1:]...)` mutates the
underlying array in place, which is what makes `Scheduler.Remove`'s
iteration over a stale slice header observable. -/
structure GoSlice where
  arr : List TaskId
  len : Nat
deriving DecidableEq

/-- The elements of a Go slice. -/
def sliceList (s : GoSlice) : List TaskId :=
  s.arr.take s.len

/-- The Go panic raised by an out-of-range slice expression. -/
def sliceBoundsPanic : String := "slice bounds out of range"

/-- `append(s[:i], s[i+1:]...)` evaluated on slice `s`: the expression
`s[i+1:]` panics when `i + 1 > len(s)`; otherwise the elements
`i+1 .. len-1` are copied down one position in the underlying array (the
slot at `len-1` keeps its stale value) and the length drops by one. -/
def sliceRemoveAt (s : GoSlice) (i : Nat) : Except String GoSlice :=
  if i + 1 ≤ s.len then
    .ok ⟨s.arr.take i ++ (s.arr.drop (i + 1)).take (s.len - (i + 1)) ++
          s.arr.drop (s.len - 1), s.len - 1⟩
  else
    .error sliceBoundsPanic

/-- The inner loop of `Scheduler.Remove` (scheduler.go lines 113-117) at
outer index `i` with the already-read element `t`: for each argument
equal to `t`, reassign
`scheduler.tasks = append(scheduler.tasks[:i], scheduler.tasks[i+1:]...)`. -/
def removeInner (i : Nat) (t : TaskId) : GoSlice → List TaskId → Except String GoSlice
  | s, [] => .ok s
  | s, task :: rest =>
    if t = task then
      match sliceRemoveAt s i with
      | .ok s' => removeInner i t s' rest
      | .error e => .error e
    else removeInner i t s rest

/-- The outer loop of `Scheduler.Remove`: `for i, t := range scheduler.tasks`
iterates over the slice header captured at loop entry (its length is the
fuel), but each element `t` is read from the current, mutated underlying
array. -/
def removeLoop (args : List TaskId) : Nat → Nat → GoSlice → Except String GoSlice
  | 0, _, s => .ok s
  | fuel + 1, i, s =>
    match removeInner i (s.arr.getD i 0) s args with
    | .ok s' => removeLoop args fuel (i + 1) s'
    | .error e => .error e

/-- `Scheduler.Remove` (scheduler.go lines 108-119). -/
def schedulerRemove (s : GoSlice) (args : List TaskId) : Except String GoSlice :=
  removeLoop args s.len 0 s

/-- A pool as a fully-packed Go slice (length equals capacity). -/
def poolSlice (pool : List TaskId) : GoSlice :=
  ⟨pool, pool.length⟩

/-- The mutable attributes of a `Task` object on the heap (task.go):
`weight`, `duration` (a Go `time.Duration`, i.e. `int64` nanoseconds),
`concurrent` and `locked`. -/
structure TaskMut where
  weight : Nat
  duration : Int
  concurrent : Bool
  locked : Bool
deriving DecidableEq

/-- State of the scheduler for the lock-discipline system: the heap of
task objects (by reference identity), the pool, and the multiset of task
executions currently in flight (selected by `next` and whose
`handleTasker` call has not yet concluded). -/
structure S4 where
  tasks : TaskId → TaskMut
  pool : List TaskId
  inFlight : List TaskId

/-- Reading a heap task into the view consumed by `Scheduler.next`. -/
def taskView (f : TaskId → TaskMut) (id : TaskId) : TaskV :=
  ⟨id, (f id).weight, (f id).locked, (f id).concurrent⟩

/-- `task.Lock()` / `task.Unlock()`: store into the `locked` atomic of the
task object `id`. -/
def setLocked (f : TaskId → TaskMut) (id : TaskId) (b : Bool) : TaskId → TaskMut :=
  fun j => if j = id then { f j with locked := b } else f j

/-- The selection made by `Scheduler.next` on state `s` with draw `r`. -/
def selectResult (s : S4) (r : Nat) : Option TaskV :=
  nextGo (s.pool.map (taskView s.tasks)) r

/-- The state change of `Scheduler.next` (scheduler.go lines 138-148): if
a task was selected and it is not concurrent, lock it (`task.Lock()`);
either way the selected task's execution becomes in flight, since the
worker immediately calls `handleTasker` on it. -/
def selectStep (s : S4) (r : Nat) : S4 :=
  match selectResult s r with
  | none => s
  | some t =>
    { s with
      tasks := if t.concurrent then s.tasks else setLocked s.tasks t.id true,
      inFlight := t.id :: s.inFlight }

/-- The conclusion of `Scheduler.handleTasker` (scheduler.go lines
159-164): the deferred `if !task.IsConcurrent() { task.Unlock() }` runs
once the call concludes — Go runs deferred functions even when the
function exits abnormally (panics), so no extra case is needed for
abnormal exit. -/
def finishStep (s : S4) (id : TaskId) : S4 :=
  { s with
    tasks := if (s.tasks id).concurrent then s.tasks else setLocked s.tasks id false,
    inFlight := s.inFlight.erase id }

/-- The pool effect of `Scheduler.Remove` abstracted to its intent
(deleting the listed references); the lock-discipline invariant does not
depend on the pool contents, so the slice-level behaviour (see
`schedulerRemove`) is irrelevant here. -/
def eraseAll (pool : List TaskId) (args : List TaskId) : List TaskId :=
  args.foldl (fun acc id => acc.erase id) pool

/-- States reachable by scheduler operations, starting from a heap of
freshly constructed tasks (`NewTask` leaves `locked` at its zero value,
false) and an empty pool with nothing in flight.  The steps are `Add`,
`Remove`, the selection step of `next`, the conclusion of a
`handleTasker` call, and `Stop` clearing the pool. -/
inductive Reach : S4 → Prop
  | init (f : TaskId → TaskMut) (hf : ∀ id, (f id).locked = false) :
      Reach ⟨f, [], []⟩
  | add (s : S4) (ids : List TaskId) (h : Reach s) :
      Reach { s with pool := schedulerAdd s.pool ids }
  | rem (s : S4) (ids : List TaskId) (h : Reach s) :
      Reach { s with pool := eraseAll s.pool ids }
  | sel (s : S4) (r : Nat) (h : Reach s) : Reach (selectStep s r)
  | fin (s : S4) (id : TaskId) (h : Reach s) : Reach (finishStep s id)
  | stop (s : S4) (h : Reach s) : Reach { s with pool := [] }

/-- The lock-discipline invariant: a locked task is sequential (not
concurrent) and has an execution in flight. -/
def LockInv (s : S4) : Prop :=
  ∀ id, (s.tasks id).locked = true →
    (s.tasks id).concurrent = false ∧ id ∈ s.inFlight

/-- A concrete heap of freshly constructed tasks for the witnesses. -/
def store0 : TaskId → TaskMut := fun _ => ⟨1, 0, false, false⟩

/-- A concrete initial scheduler state. -/
def s40 : S4 := ⟨store0, [], []⟩

/-- Lifecycle state of the scheduler: worker count (fixed at
construction), pool, whether a lifetime context exists
(`scheduler.ctx != nil`), and how many worker goroutines are live. -/
structure LState where
  workers : Nat
  pool : List TaskId
  running : Bool
  spawned : Nat
deriving DecidableEq

/-- `Scheduler.Start` (scheduler.go lines 205-230): no-op when already
running; otherwise install a fresh lifetime context (the scheduler is now
running), and — only when the pool is non-empty — spawn exactly `workers`
workers.  `Start` returns nothing, so there is no error to report. -/
def startGo (s : LState) : LState :=
  if s.running then s
  else if s.pool.length = 0 then { s with running := true, spawned := 0 }
  else { s with running := true, spawned := s.workers }

/-- `Scheduler.Stop` (scheduler.go lines 240-255): no-op when not running;
otherwise cancel the lifetime context, wait for every worker to exit, and
clear the pool and the context. -/
def stopGo (s : LState) : LState :=
  if s.running then { s with running := false, pool := [], spawned := 0 } else s

/-- `Scheduler.IsRunning` (scheduler.go lines 259-264): `ctx != nil`. -/
def isRunningGo (s : LState) : Bool := s.running

/-- `Scheduler.Snapshot` (scheduler.go lines 271-276): a clone of the
current pool. -/
def snapshotGo (s : LState) : List TaskId := s.pool

/-- A stopped scheduler with an empty pool. -/
def ls0 : LState := ⟨4, [], false, 7⟩

/-- A running scheduler holding one task. -/
def ls1 : LState := ⟨4, [3], true, 4⟩

/-- Scheduler state as seen by an `Action`: the pool, the heap of task
objects, and the lifecycle flag. -/
structure Sched where
  pool : List TaskId
  tasks : TaskId → TaskMut
  running : Bool

/-- Go `type Action func(*Scheduler, *Task)`; a `nil` Action is `none`. -/
def Action : Type := Option (Sched → TaskId → Sched)

/-- `Scheduler.handle` (scheduler.go lines 153-157):
`if action := task.Handle(ctx); action != nil { action(scheduler, task) }`
— a `nil` action is not applied. -/
def applyAction (a : Action) (s : Sched) (t : TaskId) : Sched :=
  match a with
  | none => s
  | some f => f s t

/-- `Continue()` (action.go): `return Action(nil)`. -/
def continueGo : Action := none

/-- The pool effect `scheduler.Add(tasks...)` used inside the combinators. -/
def addEffect (ids : List TaskId) (s : Sched) : Sched :=
  { s with pool := schedulerAdd s.pool ids }

/-- The pool effect `scheduler.Remove(task)` used by the `Action.Remove`
combinator; the single-argument `Remove` of that file's generation deletes
the first matching reference and returns. -/
def removeEffect (s : Sched) (t : TaskId) : Sched :=
  { s with pool := s.pool.erase t }

/-- `Action.Then` (action.go lines 22-30): the returned closure runs the
base action (when non-nil) and then the callback.  The callback is called
unconditionally, so it is modelled as a plain function. -/
def thenGo (action : Action) (callback : Sched → TaskId → Sched) : Action :=
  some (fun s t => callback (applyAction action s t) t)

/-- `Action.ThenAdd` (action.go lines 13-17):
`action.Then(func(scheduler, task) { scheduler.Add(tasks...) })`. -/
def thenAddGo (action : Action) (ids : List TaskId) : Action :=
  thenGo action (fun s _ => addEffect ids s)

/-- `Action.Add` (older action file, lines 29-37): the returned closure
first runs `scheduler.Add(tasks...)` and only then the base action. -/
def addComb (action : Action) (ids : List TaskId) : Action :=
  some (fun s t => applyAction action (addEffect ids s) t)

/-- `Action.Remove` (older action file, lines 11-19): the returned closure
first runs `scheduler.Remove(task)` and only then the base action. -/
def removeComb (action : Action) : Action :=
  some (fun s t => applyAction action (removeEffect s t) t)

/-- A base action that replaces the pool by `[7]`, used to observe
composition order. -/
def act7 : Action := some (fun s _ => { s with pool := [7] })

/-- A scheduler state with an empty pool for the Action theorems. -/
def sched0 : Sched := ⟨[], store0, false⟩

/-- A full `Task` object as built by `NewTask` (task.go): the handler
reference plus the mutable attributes. -/
structure TaskObj (H : Type) where
  handler : H
  weight : Nat
  duration : Int
  concurrent : Bool
  locked : Bool

/-- The panic message of `NewTask` on a nil handler. -/
def handlerPanicMsg : String :=
  "no task handler defined. please ensure the task handler is not nil"

/-- `NewTask(handler)` (task.go lines 22-36): panics when the handler is
nil (`none`); otherwise stores the handler and the defaults weight 1,
duration `DurationUnlimited = 0` and concurrent false, while the `locked`
atomic keeps its zero value, false. -/
def newTask (H : Type) (handler : Option H) : Except String (TaskObj H) :=
  match handler with
  | none => .error handlerPanicMsg
  | some h => .ok ⟨h, 1, 0, false, false⟩

theorem wfold_cons (a : Nat) (t : TaskV) (ts : List TaskV) :
    wfold a (t :: ts) = wfold ((a + t.weight) % u64) ts := rfl

theorem u64_pos : 0 < u64 := by
  simp [u64]

theorem selectLoop_isSome (ts : List TaskV) :
    ∀ a p : Nat, a ≤ p → p < wfold a ts → (selectLoop p a ts).isSome := by
  induction ts with
  | nil =>
    intro a p hle hlt
    exact absurd hlt (by simp [wfold, Nat.not_lt.mpr hle])
  | cons t rest ih =>
    intro a p hle hlt
    rw [wfold_cons] at hlt
    by_cases hc : p < (a + t.weight) % u64
    · simp [selectLoop, hc]
    · simpa [selectLoop, hc] using ih _ p (Nat.le_of_not_lt hc) hlt

theorem selectLoop_first (ts : List TaskV) :
    ∀ a p : Nat, ∀ t : TaskV, selectLoop p a ts = some t →
      ∃ i : Nat, ts[i]? = some t ∧ p < wfold a (ts.take (i + 1)) ∧
        ∀ j : Nat, j < i → wfold a (ts.take (j + 1)) ≤ p := by
  induction ts with
  | nil => intro a p t h; exact absurd h (by simp [selectLoop])
  | cons t0 rest ih =>
    intro a p t h
    by_cases hc : p < (a + t0.weight) % u64
    · refine ⟨0, ?_, ?_, ?_⟩
      · have : t0 = t := by simpa [selectLoop, hc] using h
        simp [this]
      · simpa [wfold] using hc
      · intro j hj; exact absurd hj (Nat.not_lt_zero j)
    · have h' : selectLoop p ((a + t0.weight) % u64) rest = some t := by
        simpa [selectLoop, hc] using h
      obtain ⟨i, hget, hlt, hfirst⟩ := ih _ p t h'
      refine ⟨i + 1, by simpa using hget, by simpa [wfold_cons] using hlt, ?_⟩
      intro j hj
      cases j with
      | zero => simpa [wfold] using Nat.le_of_not_lt hc
      | succ jj =>
        have := hfirst jj (Nat.lt_of_succ_lt_succ hj)
        simpa [wfold_cons] using this

theorem selectLoop_mem (ts : List TaskV) :
    ∀ a p : Nat, ∀ t : TaskV, selectLoop p a ts = some t → t ∈ ts := by
  induction ts with
  | nil => intro a p t h; exact absurd h (by simp [selectLoop])
  | cons t0 rest ih =>
    intro a p t h
    by_cases hc : p < (a + t0.weight) % u64
    · have : t0 = t := by simpa [selectLoop, hc] using h
      simp [this]
    · have h' : selectLoop p ((a + t0.weight) % u64) rest = some t := by
        simpa [selectLoop, hc] using h
      exact List.mem_cons_of_mem t0 (ih _ p t h')

theorem selectLoop_pos_weight (ts : List TaskV) :
    ∀ a p : Nat, ∀ t : TaskV, a ≤ p → a < u64 →
      selectLoop p a ts = some t → t.weight ≠ 0 := by
  induction ts with
  | nil => intro a p t _ _ h; exact absurd h (by simp [selectLoop])
  | cons t0 rest ih =>
    intro a p t hle hbound h
    by_cases hc : p < (a + t0.weight) % u64
    · have ht : t0 = t := by simpa [selectLoop, hc] using h
      intro hzero
      rw [← ht] at hzero
      rw [hzero, Nat.add_zero, Nat.mod_eq_of_lt hbound] at hc
      exact absurd hle (Nat.not_le_of_lt hc)
    · have h' : selectLoop p ((a + t0.weight) % u64) rest = some t := by
        simpa [selectLoop, hc] using h
      exact ih _ p t (Nat.le_of_not_lt hc) (Nat.mod_lt _ u64_pos) h'

/-- C1: once `Scheduler.next` holds the pool lock it computes the unlocked
subset and its total weight `W`; when `W = 0` it returns no task, and
otherwise, for the drawn pick `r % W ∈ [0, W)`, it returns exactly the
first task of the unlocked subset (in pool order) whose running cumulative
weight strictly exceeds the pick — and such a task always exists, so a
task is always returned when `W > 0`. -/
theorem next_selects_first_cumulative (tasks : List TaskV) (r : Nat) :
    (tasksWeight (unlockedOf tasks) = 0 → nextGo tasks r = none) ∧
    (tasksWeight (unlockedOf tasks) ≠ 0 →
      ∃ i : Nat, ∃ t : TaskV, (unlockedOf tasks)[i]? = some t ∧
        nextGo tasks r = some t ∧
        r % tasksWeight (unlockedOf tasks) <
          tasksWeight ((unlockedOf tasks).take (i + 1)) ∧
        ∀ j : Nat, j < i →
          tasksWeight ((unlockedOf tasks).take (j + 1)) ≤
            r % tasksWeight (unlockedOf tasks)) := by
  constructor
  · intro h
    simp [nextGo, h]
  · intro h
    have hpos : 0 < tasksWeight (unlockedOf tasks) := Nat.pos_of_ne_zero h
    have hp : r % tasksWeight (unlockedOf tasks) < tasksWeight (unlockedOf tasks) :=
      Nat.mod_lt _ hpos
    have hsome := selectLoop_isSome (unlockedOf tasks) 0
      (r % tasksWeight (unlockedOf tasks)) (Nat.zero_le _) hp
    obtain ⟨t, ht⟩ := Option.isSome_iff_exists.mp hsome
    obtain ⟨i, hget, hlt, hfirst⟩ :=
      selectLoop_first (unlockedOf tasks) 0 (r % tasksWeight (unlockedOf tasks)) t ht
    refine ⟨i, t, hget, ?_, hlt, hfirst⟩
    simp [nextGo, h, ht]

theorem next_selects_first_cumulative_witness :
    tasksWeight (unlockedOf tasksW1) ≠ 0 ∧
    (∃ i : Nat, ∃ t : TaskV, (unlockedOf tasksW1)[i]? = some t ∧
      nextGo tasksW1 2 = some t ∧
      2 % tasksWeight (unlockedOf tasksW1) <
        tasksWeight ((unlockedOf tasksW1).take (i + 1)) ∧
      ∀ j : Nat, j < i →
        tasksWeight ((unlockedOf tasksW1).take (j + 1)) ≤
          2 % tasksWeight (unlockedOf tasksW1)) :=
  ⟨by decide, (next_selects_first_cumulative tasksW1 2).2 (by decide)⟩

/-- C10: `Scheduler.next` never returns a task of weight 0: a zero-weight
member leaves the running cumulative sum unchanged, so `pick < current`
can first become true only at a task of positive weight. -/
theorem next_never_zero_weight (tasks : List TaskV) (r : Nat) (t : TaskV)
    (h : nextGo tasks r = some t) : t.weight ≠ 0 := by
  unfold nextGo at h
  by_cases hw : tasksWeight (unlockedOf tasks) = 0
  · simp [hw] at h
  · have h' : selectLoop (r % tasksWeight (unlockedOf tasks)) 0 (unlockedOf tasks) =
        some t := by simpa [hw] using h
    exact selectLoop_pos_weight (unlockedOf tasks) 0 _ t (Nat.zero_le _) u64_pos h'

theorem next_never_zero_weight_witness :
    nextGo tasksW1 2 = some ⟨1, 3, false, false⟩ ∧
    (⟨1, 3, false, false⟩ : TaskV).weight ≠ 0 :=
  ⟨by decide, next_never_zero_weight tasksW1 2 ⟨1, 3, false, false⟩ (by decide)⟩

/-- C2 fails on the code: `Scheduler.Add`'s own doc comment promises that
an already-present task is ignored, but the duplicate check is a no-op,
so adding task 0 to a pool that already contains it appends a second
copy — the pool after adding the same task twice has size 2, not the
size 1 the claim requires. -/
theorem add_duplicate_grows_pool :
    schedulerAdd (schedulerAdd [] [0]) [0] = [0, 0] ∧
    (schedulerAdd (schedulerAdd [] [0]) [0]).length ≠
      (schedulerAdd [] [0]).length := by
  decide

theorem removeInner_no_match (i : Nat) (t : TaskId) :
    ∀ args : List TaskId, ∀ s : GoSlice, t ∉ args →
      removeInner i t s args = .ok s := by
  intro args
  induction args with
  | nil => intro s _; rfl
  | cons a rest ih =>
    intro s hmem
    have hne : t ≠ a := fun h => hmem (h ▸ List.mem_cons_self a rest)
    have hrest : t ∉ rest := fun h => hmem (List.mem_cons_of_mem a h)
    simp [removeInner, hne, ih s hrest]

theorem removeLoop_no_match (args : List TaskId) :
    ∀ fuel i : Nat, ∀ s : GoSlice, (∀ x ∈ args, x ∉ s.arr) →
      i + fuel ≤ s.arr.length → removeLoop args fuel i s = .ok s := by
  intro fuel
  induction fuel with
  | zero => intro i s _ _; rfl
  | succ n ih =>
    intro i s habs hrange
    have hi : i < s.arr.length := by omega
    have hnot : s.arr.getD i 0 ∉ args := by
      intro hin
      exact habs _ hin (by rw [List.getD_eq_getElem s.arr 0 hi]; exact List.getElem_mem hi)
    rw [removeLoop, removeInner_no_match i _ args s hnot]
    exact ih (i + 1) s habs (by omega)

/-- Removing tasks none of which is in the pool leaves the pool exactly
unchanged: the no-op half of the `Remove` contract, which does hold. -/
theorem schedulerRemove_absent_noop (pool : List TaskId) (args : List TaskId)
    (h : ∀ x ∈ args, x ∉ pool) :
    schedulerRemove (poolSlice pool) args = .ok (poolSlice pool) :=
  removeLoop_no_match args pool.length 0 (poolSlice pool) h (by simp [poolSlice])

/-- C3 fails on the code: removing tasks 1 and 2 from the pool `[1, 2]`
(both present, as the claim allows) panics.  After task 1 is removed in
place, the stale slice header still has length 2, so the loop reads the
duplicated copy of task 2 at index 1, matches it, and evaluates
`scheduler.tasks[i+1:]` = `tasks[2:]` on a slice of length 1 — a Go
slice-bounds panic instead of the claimed deletion of both tasks. -/
theorem remove_two_adjacent_panics :
    schedulerRemove (poolSlice [1, 2]) [1, 2] = .error sliceBoundsPanic := by
  rfl

theorem nextGo_mem (tasks : List TaskV) (r : Nat) (t : TaskV)
    (h : nextGo tasks r = some t) : t ∈ tasks := by
  unfold nextGo at h
  by_cases hw : tasksWeight (unlockedOf tasks) = 0
  · simp [hw] at h
  · have h' : selectLoop (r % tasksWeight (unlockedOf tasks)) 0 (unlockedOf tasks) =
        some t := by simpa [hw] using h
    have hmem := selectLoop_mem (unlockedOf tasks) 0 _ t h'
    rw [unlockedOf] at hmem
    exact List.mem_of_mem_filter hmem

theorem selectResult_concurrent (s : S4) (r : Nat) (t : TaskV)
    (h : selectResult s r = some t) : t.concurrent = (s.tasks t.id).concurrent := by
  have hmem := nextGo_mem _ r t h
  obtain ⟨j, hj, rfl⟩ := List.mem_map.mp hmem
  rfl

theorem setLocked_self (f : TaskId → TaskMut) (id : TaskId) (b : Bool) :
    setLocked f id b id = { f id with locked := b } := by
  simp [setLocked]

theorem setLocked_other (f : TaskId → TaskMut) (id j : TaskId) (b : Bool)
    (h : j ≠ id) : setLocked f id b j = f j := by
  simp [setLocked, h]

/-- C4: in every state reachable by scheduler operations, a task's locked
flag is set only if the task is sequential (not concurrent) and an
execution of it is in flight: `next` locks only the selected
non-concurrent task, the deferred unlock in `handleTasker` runs when the
execution step concludes (Go runs deferred calls even on abnormal exit),
and the scheduler never locks a concurrent task. -/
theorem locked_only_sequential_in_flight (s : S4) (h : Reach s) : LockInv s := by
  induction h with
  | init f hf =>
    intro id hid
    rw [hf id] at hid
    exact absurd hid (by simp)
  | add s ids h ih => exact fun id hid => ih id hid
  | rem s ids h ih => exact fun id hid => ih id hid
  | stop s h ih => exact fun id hid => ih id hid
  | sel s r h ih =>
    unfold LockInv selectStep
    cases hn : selectResult s r with
    | none => exact fun id hid => ih id hid
    | some t =>
      by_cases hconc : t.concurrent = true
      · simp only [hconc, if_true]
        intro id hid
        obtain ⟨h1, h2⟩ := ih id hid
        exact ⟨h1, List.mem_cons_of_mem _ h2⟩
      · have hcf : t.concurrent = false := by
          cases hb : t.concurrent
          · rfl
          · exact absurd hb hconc
        simp only [hcf, Bool.false_eq_true, if_false]
        intro id hid
        by_cases hid_eq : id = t.id
        · subst hid_eq
          refine ⟨?_, List.mem_cons_self _ _⟩
          rw [setLocked_self]
          have hsc := selectResult_concurrent s r t hn
          simpa using hsc ▸ hcf
        · rw [setLocked_other s.tasks t.id id true hid_eq] at hid ⊢
          obtain ⟨h1, h2⟩ := ih id hid
          exact ⟨h1, List.mem_cons_of_mem _ h2⟩
  | fin s id0 h ih =>
    unfold LockInv finishStep
    by_cases hc0 : (s.tasks id0).concurrent = true
    · simp only [hc0, if_true]
      intro id hid
      obtain ⟨h1, h2⟩ := ih id hid
      have hne : id ≠ id0 := by
        intro he
        subst he
        rw [h1] at hc0
        exact absurd hc0 (by simp)
      exact ⟨h1, (List.mem_erase_of_ne hne).mpr h2⟩
    · have hcf : (s.tasks id0).concurrent = false := by
        cases hb : (s.tasks id0).concurrent
        · rfl
        · exact absurd hb hc0
      simp only [hcf, Bool.false_eq_true, if_false]
      intro id hid
      by_cases he : id = id0
      · subst he
        rw [setLocked_self] at hid
        exact absurd hid (by simp)
      · rw [setLocked_other s.tasks id0 id false he] at hid ⊢
        obtain ⟨h1, h2⟩ := ih id hid
        exact ⟨h1, (List.mem_erase_of_ne he).mpr h2⟩

theorem locked_only_sequential_in_flight_witness : LockInv s40 :=
  locked_only_sequential_in_flight s40 (Reach.init store0 (fun _ => rfl))

/-- C5: `start()` on a running scheduler and `stop()` on a non-running one
are silent no-ops; after `stop()` on a running scheduler `isRunning()` is
false and `snapshot()` is empty; and `start()` on a stopped scheduler
with an empty pool leaves it running with zero workers spawned (`Start`
returns nothing, so there is no error to report). -/
theorem lifecycle_start_stop (s : LState) :
    (s.running = true → startGo s = s) ∧
    (s.running = false → stopGo s = s) ∧
    (s.running = true → isRunningGo (stopGo s) = false ∧ snapshotGo (stopGo s) = []) ∧
    (s.running = false → s.pool = [] →
      isRunningGo (startGo s) = true ∧ (startGo s).spawned = 0) := by
  refine ⟨fun h => ?_, fun h => ?_, fun h => ⟨?_, ?_⟩, fun h hp => ⟨?_, ?_⟩⟩ <;>
    simp [startGo, stopGo, isRunningGo, snapshotGo, *]

theorem lifecycle_start_stop_witness :
    stopGo ls0 = ls0 ∧
    isRunningGo (startGo ls0) = true ∧ (startGo ls0).spawned = 0 ∧
    startGo ls1 = ls1 ∧
    isRunningGo (stopGo ls1) = false ∧ snapshotGo (stopGo ls1) = [] :=
  ⟨(lifecycle_start_stop ls0).2.1 rfl,
   ((lifecycle_start_stop ls0).2.2.2 rfl rfl).1,
   ((lifecycle_start_stop ls0).2.2.2 rfl rfl).2,
   (lifecycle_start_stop ls1).1 rfl,
   ((lifecycle_start_stop ls1).2.2.1 rfl).1,
   ((lifecycle_start_stop ls1).2.2.1 rfl).2⟩

/-- C6 as amended: `Then` and `ThenAdd` run the base action's effect first
and the appended effect second, while the `Add` and `Remove` combinators
of the older action file run the appended effect first and the base
action second. -/
theorem action_composition_order (action : Action) (f : Sched → TaskId → Sched)
    (ids : List TaskId) (s : Sched) (t : TaskId) :
    applyAction (thenGo action f) s t = f (applyAction action s t) t ∧
    applyAction (thenAddGo action ids) s t = addEffect ids (applyAction action s t) ∧
    applyAction (addComb action ids) s t = applyAction action (addEffect ids s) t ∧
    applyAction (removeComb action) s t = applyAction action (removeEffect s t) t :=
  ⟨rfl, rfl, rfl, rfl⟩

/-- C6 counterexample: for the base action `act7` (which sets the pool to
`[7]`) composed through the `Add` combinator with task 5, the composed
action applied to an empty pool yields pool `[7]` — the appended
`scheduler.Add` ran first and its effect was then overwritten by the base
action — not the pool `[7, 5]` that base-effect-first sequencing (as the
claim states it) would give. -/
theorem action_add_order_counterexample :
    (applyAction (addComb act7 [5]) sched0 0).pool = [7] ∧
    (addEffect [5] (applyAction act7 sched0 0)).pool = [7, 5] ∧
    (applyAction (addComb act7 [5]) sched0 0).pool ≠
      (addEffect [5] (applyAction act7 sched0 0)).pool :=
  ⟨rfl, rfl, by decide⟩

/-- C7: `NewTask(handler)` fails fast (panics) exactly when the handler is
absent; otherwise it returns a task with the default attributes: weight
1, duration 0 (unlimited), not concurrent, and not locked. -/
theorem newTask_fail_iff_nil_defaults (H : Type) :
    newTask H none = .error handlerPanicMsg ∧
    ∀ h : H, newTask H (some h) = .ok ⟨h, 1, 0, false, false⟩ :=
  ⟨rfl, fun _ => rfl⟩

/-- C8: applying the action returned by `Continue()` does nothing: the
pool contents, every task's attributes and the scheduler's lifecycle
state are exactly as before, because `Continue()` is the nil action and
`Scheduler.handle` skips a nil action. -/
theorem continue_action_noop (s : Sched) (t : TaskId) :
    applyAction continueGo s t = s ∧
    (applyAction continueGo s t).pool = s.pool ∧
    (applyAction continueGo s t).tasks = s.tasks ∧
    (applyAction continueGo s t).running = s.running :=
  ⟨rfl, rfl, rfl, rfl⟩

end Yotei
